import Mathlib

/-!
Shallow embedding of `git_dig.py` (repository `rhizoome/git-dig`).

The Python module is embedded as executable Lean definitions:

* text streams (the output of `git diff` / `git blame -s`) are lists of
  lines with the trailing newline already stripped, matching `linereader`;
* Python `int(...)` is `pyInt`, `str.partition` is `pyPartition`,
  `str.rpartition` (third component) is `pyRPartitionAfter`;
* the mutable `Hunk.deps` set is a duplicate-free list in insertion order,
  `set.add` is `setAdd`;
* exceptions are explicit outcome values: `CorrErr.stopIter` is an
  uncaught `StopIteration`, `CorrErr.assertFail` an `AssertionError`,
  `CorrErr.valueErr` a `ValueError`, `CorrErr.typeErr` a `TypeError`;
* the external `git` binary is an `Oracle` record supplying parent lists,
  diff text and blame text, mirroring the process boundary.
-/

/-- Python `str.strip()` on a character list (ASCII whitespace). -/
def chTrim (s : List Char) : List Char :=
  ((s.dropWhile Char.isWhitespace).reverse.dropWhile Char.isWhitespace).reverse

/-- Python `str.strip()`. -/
def pyTrim (s : String) : String := ⟨chTrim s.data⟩

/-- Python `s.startswith(pre)`. -/
def pyStartsWith (s pre : String) : Bool := List.isPrefixOf pre.data s.data

/-- Python `s[n:]`. -/
def pyDrop (s : String) (n : Nat) : String := ⟨s.data.drop n⟩

/-- Decimal digit run to a number: `none` unless nonempty and all digits. -/
def chDigits : List Char → Option Nat
  | [] => none
  | l =>
    if l.all Char.isDigit then
      some (l.foldl (fun a c => a * 10 + (c.toNat - 48)) 0)
    else none

/-- Python `int(s)`: strip whitespace, optional sign, decimal digits;
`none` models the `ValueError`. -/
def pyInt (s : String) : Option Int :=
  match chTrim s.data with
  | '-' :: rest => (chDigits rest).map (fun n => -(n : Int))
  | '+' :: rest => (chDigits rest).map (fun n => (n : Int))
  | t => (chDigits t).map (fun n => (n : Int))

/-- Python `s.partition(c)` restricted to the (before, after) components:
split at the first occurrence of `c`; when `c` does not occur the after
component is empty, as in Python. -/
def chPartition (c : Char) : List Char → List Char × List Char
  | [] => ([], [])
  | x :: xs =>
    if x = c then ([], xs)
    else
      let r := chPartition c xs
      (x :: r.1, r.2)

/-- `chPartition` on strings. -/
def pyPartition (s : String) (c : Char) : String × String :=
  let r := chPartition c s.data
  (⟨r.1⟩, ⟨r.2⟩)

/-- The third component of Python `s.rpartition(c)`: the text after the
last occurrence of `c`, or the whole string when `c` does not occur. -/
def pyRPartitionAfter (s : String) (c : Char) : String :=
  ⟨((s.data.reverse).takeWhile (fun x => x ≠ c)).reverse⟩

/-- `parse_blame_line` of `git_dig.py`: revision token before the first
space; line number is the text before the first `)` or, when that does not
parse as an int, its last whitespace-separated token.  `none` models the
uncaught `ValueError` when neither parses. -/
def parse_blame_line (line : String) : Option (String × Int) :=
  let p := pyPartition line ' '
  let rev := p.1
  let q := pyPartition p.2 ')'
  let number := pyTrim q.1
  match pyInt number with
  | some n => some (rev, n)
  | none => (pyInt (pyRPartitionAfter number ' ')).map (fun n => (rev, n))

/-- The skip loop of `find_revs`: `for _ in range(lines): line = next(reader)`.
Returns the line variable after the loop and the remaining stream, or `none`
when the stream is exhausted mid-loop (an uncaught `StopIteration`). -/
def skipLines : Nat → String → List String → Option (String × List String)
  | 0, line, stream => some (line, stream)
  | _ + 1, _, [] => none
  | n + 1, _, x :: rest => skipLines n x rest

/-- The read loop of `find_revs`: read up to `n` lines, parsing each with
`parse_blame_line` and collecting the revision tokens.  Returns
(revisions collected, final line variable, remaining stream, fatal flag);
stream exhaustion here is the caught `StopIteration` (not fatal), a parse
failure is the uncaught `ValueError` (fatal). -/
def readHunk : Nat → String → List String → List String × String × List String × Bool
  | 0, line, stream => ([], line, stream, false)
  | _ + 1, line, [] => ([], line, [], false)
  | n + 1, _, x :: rest =>
    match parse_blame_line x with
    | none => ([], x, rest, true)
    | some (rev, _) =>
      let r := readHunk n x rest
      (rev :: r.1, r.2.1, r.2.2.1, r.2.2.2)

/-- Python `set.add` on a set modelled as a duplicate-free list in
insertion order. -/
def setAdd (s : List String) (r : String) : List String :=
  if r ∈ s then s else s ++ [r]

/-- The `Hunk` dataclass of `git_dig.py`.  The two `(start, count)` fields
are lists of ints because `parse_hunk_field` returns a tuple of whatever
length the header had (padded to length two when it had one element). -/
structure Hunk where
  deps : List String
  parent : String
  child : String
  path : String
  first : List Int
  second : List Int
  hint : String
  line : String
  deriving DecidableEq, Repr

/-- A default hunk used only as the out-of-range default of list lookups. -/
def hunk0 : Hunk := ⟨[], "", "", "", [], [], "", ""⟩

/-- Python `line.split(sep)` for the two-character separator `@@`:
leftmost non-overlapping matches. -/
def splitOnAtAt : List Char → List (List Char)
  | [] => [[]]
  | [x] => [[x]]
  | x :: y :: xs =>
    if x = '@' ∧ y = '@' then [] :: splitOnAtAt xs
    else
      match splitOnAtAt (y :: xs) with
      | [] => [[x]]
      | z :: zs => (x :: z) :: zs

/-- Python `s.split(c)` for a single-character separator. -/
def splitOnChar (c : Char) : List Char → List (List Char)
  | [] => [[]]
  | x :: xs =>
    if x = c then [] :: splitOnChar c xs
    else
      match splitOnChar c xs with
      | [] => [[x]]
      | z :: zs => (x :: z) :: zs

/-- `parse_hunk_field` of `git_dig.py`: drop the sign character, split on
commas, parse every piece as an int (`none` models the `ValueError`), and
append 0 when only one number was given. -/
def parse_hunk_field (field : String) : Option (List Int) :=
  let pieces := (splitOnChar ',' (pyDrop field 1).data).map (fun l => String.mk l)
  match pieces.mapM pyInt with
  | none => none
  | some f => some (if f.length < 2 then f ++ [0] else f)

/-- `Hunk.from_line` of `git_dig.py`: split the header on `@@`, keep the
nonempty pieces stripped, parse the two range fields from the first piece,
and take the second piece (when present) as the hint. -/
def Hunk.from_line (parent child path line : String) : Option Hunk :=
  let data := (((splitOnAtAt line.data).map (fun l => String.mk l)).filter
    (fun d => d ≠ "")).map pyTrim
  match data with
  | [] => none
  | d0 :: rest =>
    let p := pyPartition d0 ' '
    match parse_hunk_field p.1, parse_hunk_field p.2 with
    | some f, some s => some ⟨[], parent, child, path, f, s, rest.headD "", line⟩
    | _, _ => none

/-- The module-level `_reduce_context` global of `git_dig.py` (never
reassigned anywhere in the module). -/
def reduceContextMargin : Int := 2

/-- `reducer` of `git_dig.py`.  Note `//` is Python floor division, hence
`Int.fdiv`. -/
def reducer (offset size : Int) : Int × Int :=
  let new_size := max 2 (size - 2 * reduceContextMargin)
  let reduction := Int.fdiv (min 0 (size - new_size)) 2
  (offset + reduction, new_size)

/-- `reduce_context` of `git_dig.py`: apply `reducer` to both range fields.
`none` models the `TypeError` of `reducer(*field)` when a range does not
have exactly two components. -/
def reduce_context (h : Hunk) : Option Hunk :=
  match h.first, h.second with
  | [o1, s1], [o2, s2] =>
    let f := reducer o1 s1
    let s := reducer o2 s2
    some { h with first := [f.1, f.2], second := [s.1, s.2] }
  | _, _ => none

/-- Option-valued map over a list, failing at the first failure; used where
Python applies a fallible function inside a loop. -/
def mapO (f : α → Option β) : List α → Option (List β)
  | [] => some []
  | x :: xs =>
    match f x, mapO f xs with
    | some y, some ys => some (y :: ys)
    | _, _ => none

/-- Fatal errors of the hunk parser: `assertPath` is the failed
`assert path` (no path, or a falsy empty path, established before a hunk
header), `badHunk` the `ValueError`/`IndexError` of `Hunk.from_line`. -/
inductive PHErr
  | assertPath
  | badHunk
  deriving DecidableEq, Repr

deriving instance DecidableEq for Except

/-- The loop body of `parse_hunks`: walk the diff lines keeping the current
path (`none` before any `+++ b/` header) and the hunks collected so far. -/
def parse_hunks_go (parent child : String) :
    List String → Option String → List Hunk → Except PHErr (List Hunk)
  | [], _, acc => .ok acc
  | l :: ls, path, acc =>
    if pyStartsWith l "+++ b/" then
      parse_hunks_go parent child ls (some (pyTrim (pyDrop l 6))) acc
    else if pyStartsWith l "@@ -" then
      match path with
      | none => .error .assertPath
      | some p =>
        if p = "" then .error .assertPath
        else
          match Hunk.from_line parent child p l with
          | none => .error .badHunk
          | some h => parse_hunks_go parent child ls path (acc ++ [h])
    else parse_hunks_go parent child ls path acc

/-- `parse_hunks` of `git_dig.py`, over the diff text for one
parent/child pair already split into lines. -/
def parse_hunks (stream : List String) (parent child : String) :
    Except PHErr (List Hunk) :=
  parse_hunks_go parent child stream none []

/-- Fatal outcomes of the correlation engine: uncaught `StopIteration`
(stream exhausted inside the skip loop), failed
`assert line_number == number`, uncaught `ValueError` of
`parse_blame_line`, and the `TypeError` of `reducer` on a malformed range. -/
inductive CorrErr
  | stopIter
  | assertFail
  | valueErr
  | typeErr
  deriving DecidableEq, Repr

/-- The loop of `find_revs` over the hunks of one (parent, path) group,
with explicit `last`/`line` state.  Returns the hunks of the group (those
already processed carry their enlarged `deps`) together with the fatal
outcome, `none` meaning a normal return. -/
def find_revs_go : List String → Int → String → List Hunk →
    List Hunk × Option CorrErr
  | _, _, _, [] => ([], none)
  | stream, last, line, h :: hs =>
    let line_number : Int := h.first.getD 0 0
    match skipLines (line_number - last).toNat line stream with
    | none => (h :: hs, some .stopIter)
    | some (line, stream) =>
      if line = "" then (h :: hs, none)
      else
        match parse_blame_line line with
        | none => (h :: hs, some .valueErr)
        | some (_, number) =>
          if line_number ≠ number then (h :: hs, some .assertFail)
          else
            let hunk_size : Int := h.first.getD 1 0
            let r := readHunk hunk_size.toNat line stream
            let h' := { h with deps := r.1.foldl setAdd h.deps }
            if r.2.2.2 then (h' :: hs, some .valueErr)
            else
              let rest := find_revs_go r.2.2.1 (line_number + hunk_size) r.2.1 hs
              (h' :: rest.1, rest.2)

/-- `find_revs` of `git_dig.py`: `last = 0`, `line = ""`. -/
def find_revs (stream : List String) (hunks : List Hunk) :
    List Hunk × Option CorrErr :=
  find_revs_go stream 0 "" hunks

/-- First-seen-order deduplication of the (parent, path) keys, matching the
insertion order of the `defaultdict` in `blame_hunks`. -/
def dedupKeys (l : List (String × String)) : List (String × String) :=
  l.foldl (fun acc k => if k ∈ acc then acc else acc ++ [k]) []

/-- The group loop of `blame_hunks`: for each (parent, path) key in first
insertion order, blame that parent/path and run `find_revs` over the
group, stopping at the first fatal outcome (Python: the exception
propagates, leaving the remaining groups unprocessed).  The hunks are
carried with their original positions so the results can be put back. -/
def processGroups (blameL : String → String → List String) :
    List (String × String) → List (Nat × Hunk) →
    List (Nat × Hunk) × Option CorrErr
  | [], _ => ([], none)
  | k :: ks, indexed =>
    let grp := indexed.filter (fun p => (p.2.parent, p.2.path) = k)
    let res := find_revs (blameL k.1 k.2) (grp.map Prod.snd)
    let updated := (grp.map Prod.fst).zip res.1
    match res.2 with
    | some err => (updated, some err)
    | none =>
      let rest := processGroups blameL ks indexed
      (updated ++ rest.1, rest.2)

/-- `blame_hunks` of `git_dig.py`.  Every hunk is first context-reduced;
the reduced copies share the `deps` set object with the originals, so the
observable result is the original hunks with their `deps` enlarged by the
revisions `find_revs` found for the reduced ranges. -/
def blame_hunks (blameL : String → String → List String) (hunks : List Hunk) :
    List Hunk × Option CorrErr :=
  match mapO reduce_context hunks with
  | none => (hunks, some .typeErr)
  | some reduced =>
    let indexed := (List.range reduced.length).zip reduced
    let keys := dedupKeys (reduced.map (fun h => (h.parent, h.path)))
    let res := processGroups blameL keys indexed
    let out := ((List.range hunks.length).zip hunks).map (fun p =>
      match res.1.find? (fun q => q.1 = p.1) with
      | some q => { p.2 with deps := q.2.deps }
      | none => p.2)
    (out, res.2)

/-- The external `git` boundary: parent lookup (`git rev-parse base^@`),
diff text (`git diff parent child`) and blame text
(`git blame -s rev -- path`), each already split into lines. -/
structure Oracle where
  parents : String → List String
  diffL : String → String → List String
  blameL : String → String → List String

/-- Fatal errors that abort a `dig` run: a hunk-parser error or a
correlation error propagating out of `blame_hunks`. -/
inductive DigErr
  | parse (e : PHErr)
  | blame (e : CorrErr)
  deriving DecidableEq, Repr

/-- Observable trace of one `dig` run: the printed dependencies as
(revision, depth, already-seen flag) in print order, and the revisions
whose expansion (hunk computation and correlation) was entered. -/
structure DigTrace where
  emits : List (String × Nat × Bool)
  expanded : List String
  deriving DecidableEq, Repr

/-- The `hunks += parse_hunks(parent, base)` loop of `dig`: first
exception aborts. -/
def parse_all (o : Oracle) (base : String) : List String → Except PHErr (List Hunk)
  | [] => .ok []
  | p :: ps =>
    match parse_hunks (o.diffL p base) p base with
    | .error e => .error e
    | .ok hs =>
      match parse_all o base ps with
      | .error e => .error e
      | .ok rest => .ok (hs ++ rest)

/-- `depends = set(); for hunk in hunks: depends.update(hunk.deps)`,
with the set in first-insertion order. -/
def dedupDeps (hs : List Hunk) : List String :=
  hs.foldl (fun acc h => h.deps.foldl setAdd acc) []

/-- The `for depend in depends:` loop of `dig`, abstracted over the
recursive call (`rec`), threading the shared `seen` set and aborting the
iteration at the first propagated exception.  Result:
(emitted lines, expansions entered, final seen set, error). -/
def digFoldAux (rec : String → Nat → List String →
      DigTrace × List String × Option DigErr) (depth : Nat) :
    List String → List String →
    List (String × Nat × Bool) × List String × List String × Option DigErr
  | [], seen => ([], [], seen, none)
  | d :: ds, seen =>
    if d ∈ seen then
      let r := digFoldAux rec depth ds seen
      ((d, depth, true) :: r.1, r.2.1, r.2.2.1, r.2.2.2)
    else
      let r := rec d (depth + 1) (seen ++ [d])
      match r.2.2 with
      | some e => ([(d, depth, false)] ++ r.1.emits, r.1.expanded, r.2.1, some e)
      | none =>
        let rest := digFoldAux rec depth ds r.2.1
        ((d, depth, false) :: r.1.emits ++ rest.1, r.1.expanded ++ rest.2.1,
          rest.2.2.1, rest.2.2.2)

/-- `dig` of `git_dig.py` with explicit fuel `max_depth - depth` (the
guard `depth < max_depth` becomes fuel > 0) and the visited set threaded
by value.  The emission of a dependency records the Python `depth`
argument and the already-seen flag of `print_depend`. -/
def digGo (o : Oracle) : Nat → String → Nat → List String →
    DigTrace × List String × Option DigErr
  | 0, _, _, seen => (⟨[], []⟩, seen, none)
  | fuel + 1, base, depth, seen =>
    let hunksE :=
      if base = "WORKING" then parse_hunks (o.diffL "HEAD" base) "HEAD" base
      else parse_all o base (o.parents base)
    match hunksE with
    | .error e => (⟨[], [base]⟩, seen, some (.parse e))
    | .ok hunks =>
      let b := blame_hunks o.blameL hunks
      match b.2 with
      | some e => (⟨[], [base]⟩, seen, some (.blame e))
      | none =>
        let r := digFoldAux (digGo o fuel) depth (dedupDeps b.1) seen
        (⟨r.1, base :: r.2.1⟩, r.2.2.1, r.2.2.2)

/-- Top-level `dig(base, max_depth)`: depth 0, fresh visited set. -/
def dig (o : Oracle) (base : String) (max_depth : Nat) :
    DigTrace × List String × Option DigErr :=
  digGo o max_depth base 0 []

/-- A diff stream is well formed when every hunk header comes while a
nonempty path is established (by the closest preceding `+++ b/` header)
and itself parses; the parameter mirrors the path state of `parse_hunks`. -/
def wellFormedDiff (parent child : String) :
    List String → Option String → Bool
  | [], _ => true
  | l :: ls, path =>
    if pyStartsWith l "+++ b/" then
      wellFormedDiff parent child ls (some (pyTrim (pyDrop l 6)))
    else if pyStartsWith l "@@ -" then
      match path with
      | none => false
      | some p =>
        decide (p ≠ "") && (Hunk.from_line parent child p l).isSome &&
          wellFormedDiff parent child ls path
    else wellFormedDiff parent child ls path

/-- `x` occurs as the revision token of some parseable line of some blame
stream the oracle can produce.  Every dependency `dig` ever collects is of
this form. -/
def RevOf (o : Oracle) (x : String) : Prop :=
  ∃ rev path l n, l ∈ o.blameL rev path ∧ parse_blame_line l = some (x, n)

/-- Invariant of one `digGo` call on visited set `seen` with base `b`:
the visited set grows by fresh, duplicate-free, blame-derived revisions,
and the expansions entered are `b` plus a subset of those additions,
without duplicates. -/
def GoodRun (o : Oracle) (b : String) (seen : List String)
    (out : DigTrace × List String × Option DigErr) : Prop :=
  ∃ Δ, out.2.1 = seen ++ Δ ∧ (∀ x ∈ Δ, x ∉ seen ∧ RevOf o x) ∧ Δ.Nodup ∧
    (∀ r ∈ out.1.expanded, r = b ∨ r ∈ Δ) ∧ out.1.expanded.Nodup

/-- Invariant of the `for depend in depends` loop: additions are fresh,
duplicate-free and blame-derived, and every expansion entered by the loop
is one of the additions, without duplicates. -/
def FoldGood (o : Oracle) (seen : List String)
    (out : List (String × Nat × Bool) × List String × List String × Option DigErr) :
    Prop :=
  ∃ Δ, out.2.2.1 = seen ++ Δ ∧ (∀ x ∈ Δ, x ∉ seen ∧ RevOf o x) ∧ Δ.Nodup ∧
    (∀ r ∈ out.2.1, r ∈ Δ) ∧ out.2.1.Nodup

/-- Fixture: a hunk with old range (5,3) and no dependencies yet. -/
def hunk530 : Hunk := ⟨[], "p", "c", "f", [5, 3], [5, 3], "", "@@ -5,3 +5,3 @@"⟩

/-- Fixture: a hunk with old range (5,2). -/
def hunk52 : Hunk := ⟨[], "p", "c", "f", [5, 2], [5, 2], "", "@@ -5,2 +5,2 @@"⟩

/-- Fixture: a hunk with old range (1,5). -/
def hunk15 : Hunk := ⟨[], "p", "c", "f", [1, 5], [1, 5], "", "@@ -1,5 +1,5 @@"⟩

/-- Fixture: a hunk with old range (1,1). -/
def hunk11 : Hunk := ⟨[], "p", "c", "f", [1, 1], [1, 1], "", "@@ -1,1 +1,1 @@"⟩

/-- Fixture: blame stream of 8 lines; lines 5, 6, 7 are authored by
revisions A, A, B and line 8 by revision C. -/
def stream8 : List String :=
  ["Z 1) a", "Z 2) a", "Z 3) a", "Z 4) a", "A 5) a", "A 6) a", "B 7) a",
    "C 8) a"]

/-- Fixture: blame stream of 7 lines; lines 5, 6, 7 are authored by
revisions A, A, B, and the stream ends at line 7. -/
def stream7 : List String :=
  ["Z 1) a", "Z 2) a", "Z 3) a", "Z 4) a", "A 5) a", "A 6) a", "B 7) a"]

/-- The authorship map of `stream7` by line number. -/
def revOf7 (n : Nat) : String :=
  if n = 5 then "A" else if n = 6 then "A" else if n = 7 then "B" else "Z"

/-- Fixture: blame stream of only 3 lines. -/
def stream3 : List String := ["A 1) a", "B 2) a", "C 3) a"]

/-- Fixture: an oracle whose only change is one hunk in `f.txt` whose
blamed lines are authored by the boundary-marked revision `^bnd`. -/
def oracleBnd : Oracle where
  parents := fun r => if r = "BASE" then ["P"] else []
  diffL := fun p c =>
    if p = "P" ∧ c = "BASE" then ["+++ b/f.txt", "@@ -1,5 +1,5 @@"] else []
  blameL := fun r pa =>
    if r = "P" ∧ pa = "f.txt" then ["A 1) x", "^bnd 2) x", "^bnd 3) x"]
    else []

/-- Fixture: an oracle that returns nothing at all. -/
def oracle0 : Oracle where
  parents := fun _ => []
  diffL := fun _ _ => []
  blameL := fun _ _ => []

/-- Fixture: a 2-line blame stream whose second line reports number 999. -/
def stream99 : List String := ["A 1) x", "B 999) x"]

/-- Revision tokens of `stream99` by stream index. -/
def gAB : Nat → String := fun i => if i = 0 then "A" else "B"

/-- Reported line numbers of `stream99` by stream index. -/
def nuAB : Nat → Int := fun i => if i = 0 then 1 else 999

/-- Fixture: a 1-line blame stream whose line reports number 7. -/
def streamA7 : List String := ["A 7) x"]

/-- Revision tokens of `streamA7` by stream index. -/
def gA : Nat → String := fun _ => "A"

/-- Reported line numbers of `streamA7` by stream index. -/
def nuA : Nat → Int := fun _ => 7

/-! ## Basic lemmas about the stream primitives -/

theorem getD_drop (l : List α) (n i : Nat) (d : α) :
    (l.drop n).getD i d = l.getD (n + i) d := by
  induction n generalizing l with
  | zero => simp
  | succ n ih =>
    cases l with
    | nil => simp
    | cons x xs => simp [Nat.succ_add, ih xs]

theorem skipLines_eq (n : Nat) (line : String) (s : List String)
    (h : n ≤ s.length) :
    skipLines n line s = some ((line :: s).getD n "", s.drop n) := by
  induction n generalizing line s with
  | zero => simp [skipLines]
  | succ n ih =>
    cases s with
    | nil => simp at h
    | cons x xs =>
      simp only [skipLines]
      rw [ih x xs (by simpa using h)]
      simp [List.getD]

theorem skipLines_some_drop (n : Nat) (line l' : String) (s s' : List String)
    (h : skipLines n line s = some (l', s')) : s' = s.drop n := by
  induction n generalizing line s with
  | zero => simp [skipLines] at h; simp [h.2]
  | succ n ih =>
    cases s with
    | nil => simp [skipLines] at h
    | cons x xs =>
      simp only [skipLines] at h
      simpa using ih x xs h

theorem mem_foldl_setAdd (l : List String) (init : List String) (x : String) :
    x ∈ l.foldl setAdd init ↔ x ∈ init ∨ x ∈ l := by
  induction l generalizing init with
  | nil => simp
  | cons y ys ih =>
    simp only [List.foldl_cons, ih, setAdd, List.mem_cons]
    by_cases hy : y ∈ init
    · simp only [if_pos hy]
      constructor
      · exact fun h => h.elim Or.inl (fun h2 => Or.inr (Or.inr h2))
      · rintro (h | rfl | h)
        · exact Or.inl h
        · exact Or.inl hy
        · exact Or.inr h
    · simp only [if_neg hy, List.mem_append, List.mem_singleton]
      tauto

/-! ## Claim theorems: concrete evaluations -/

/-- C2 (code_bug evidence): the parser gives a hunk field with only a
start the count 0, not 1: `@@ -12 +12 @@` parses to ranges (12, 0). -/
theorem parse_hunk_field_implicit_count_zero :
    parse_hunk_field "-12" = some [12, 0] ∧
    Hunk.from_line "HEAD" "WORKING" "f.txt" "@@ -12 +12 @@" =
      some ⟨[], "HEAD", "WORKING", "f.txt", [12, 0], [12, 0], "",
        "@@ -12 +12 @@"⟩ := by
  constructor <;> decide

/-- C3 (code_bug evidence): with the default margin 2, `reducer` maps
(10, 10) to (10, 6) — the start is not shifted forward, because
`min(0, size - new_size)` is never positive — while the claim expects
(12, 6); the floor at length 2 on (10, 3) does hold, giving (10, 2). -/
theorem reducer_no_forward_shift :
    reducer 10 10 = (10, 6) ∧ reducer 10 3 = (10, 2) := by
  constructor <;> decide

/-- C8: with `max_depth = 0` the walker emits nothing and expands
nothing, for every oracle and base. -/
theorem dig_max_depth_zero (o : Oracle) (base : String) :
    (dig o base 0).1.emits = [] ∧ (dig o base 0).1.expanded = [] :=
  ⟨rfl, rfl⟩

/-- C6 counterexample: the boundary-marked dependency `^bnd` is emitted
by the walker, contradicting the claim that it is never emitted. -/
theorem boundary_marker_emitted :
    ("^bnd", 0, false) ∈ (dig oracleBnd "BASE" 2).1.emits := by decide

/-- C6 (amended): no boundary-marker filtering exists in `dig`: the
dependency `^bnd` is emitted like any other revision and, being unseen
and within the depth bound, recursed into (its expansion is entered). -/
theorem boundary_marker_treated_normally :
    dig oracleBnd "BASE" 2 =
      (⟨[("^bnd", 0, false)], ["BASE", "^bnd"]⟩, ["^bnd"], none) := by decide

/-- C4 (code_bug evidence): when the provenance stream is exhausted in
the skip phase (hunk start 5, stream of 3 lines), `find_revs` ends in an
uncaught `StopIteration` and `blame_hunks` propagates it (it only catches
`CalledProcessError`); exhaustion inside the read phase (hunk (1,5),
stream of 3 lines) is caught and returns normally with partial
dependencies. -/
theorem stream_exhaustion_in_skip_raises :
    (find_revs stream3 [hunk52]).2 = some CorrErr.stopIter ∧
    (blame_hunks (fun _ _ => stream3) [hunk52]).2 = some CorrErr.stopIter ∧
    find_revs stream3 [hunk15] =
      ([{ hunk15 with deps := ["B", "C"] }], none) := by
  refine ⟨by decide, by decide, by decide⟩

/-- C5 counterexample: the line numbers of the lines read for a hunk are
never compared with the running counter: with hunk (1,1) the read line
reports number 999 instead of the expected 2, yet correlation returns a
dependency set normally. -/
theorem read_line_numbers_unchecked :
    find_revs ["A 1) x", "B 999) x"] [hunk11] =
      ([{ hunk11 with deps := ["B"] }], none) := by decide

/-- C1 counterexample: for the hunk with old range (5,3) and a stream
whose lines 5, 6, 7 are authored by A, A, B (and line 8 by C), the code
attributes {A, B, C} — the revisions of lines 6, 7, 8 — not {A, B}. -/
theorem find_revs_attribution_counterexample :
    find_revs stream8 [hunk530] =
      ([{ hunk530 with deps := ["A", "B", "C"] }], none) ∧
    ¬ (∀ x : String, x ∈ ["A", "B", "C"] ↔ x = "A" ∨ x = "B") := by
  refine ⟨by decide, fun h => ?_⟩
  rcases (h "C").mp (by decide) with h' | h' <;> simp at h'

theorem readHunk_spec (n : Nat) (s : List String) (line : String)
    (g : Nat → String) (ν : Nat → Int)
    (hp : ∀ i, i < min n s.length →
      parse_blame_line (s.getD i "") = some (g i, ν i)) :
    readHunk n line s =
      ((List.range (min n s.length)).map g,
        (line :: s).getD (min n s.length) "", s.drop n, false) := by
  induction n generalizing s line g ν with
  | zero => simp [readHunk]
  | succ n ih =>
    cases s with
    | nil => simp [readHunk]
    | cons x xs =>
      have hmin : min (n + 1) (xs.length + 1) = min n xs.length + 1 := by
        omega
      have h0 : parse_blame_line x = some (g 0, ν 0) := by
        have := hp 0 (by simp [hmin])
        simpa using this
      have ihx := ih xs x (fun i => g (i + 1)) (fun i => ν (i + 1))
        (fun i hi => by
          have := hp (i + 1) (by simp [hmin] at hi ⊢; omega)
          simpa using this)
      simp only [readHunk, h0, ihx, List.length_cons, hmin]
      rw [List.range_succ_eq_map]
      simp [List.map_map, Function.comp, List.getD]

theorem find_revs_sole (stream : List String) (h0 : Hunk) (s c : Nat)
    (g : Nat → String) (ν : Nat → Int)
    (hf : h0.first = [(s : Int), (c : Int)])
    (hs1 : 1 ≤ s) (hsL : s ≤ stream.length)
    (hne : stream.getD (s - 1) "" ≠ "")
    (hstart : parse_blame_line (stream.getD (s - 1) "") =
      some (g (s - 1), (s : Int)))
    (hread : ∀ i, s ≤ i → i < min (s + c) stream.length →
      parse_blame_line (stream.getD i "") = some (g i, ν i)) :
    find_revs stream [h0] =
      ([{ h0 with deps :=
          ((List.range (min c (stream.length - s))).map
            (fun i => g (s + i))).foldl setAdd h0.deps }], none) := by
  have htoNat : ((s : Int) - 0).toNat = s := by omega
  have hskip : skipLines s "" stream =
      some (stream.getD (s - 1) "", stream.drop s) := by
    rw [skipLines_eq s "" stream hsL]
    obtain ⟨t, rfl⟩ : ∃ t, s = t + 1 := ⟨s - 1, by omega⟩
    simp [List.getD_cons_succ]
  have hlen : (stream.drop s).length = stream.length - s := by
    simp
  have hreadH : readHunk ((c : Int)).toNat (stream.getD (s - 1) "")
      (stream.drop s) =
      ((List.range (min c (stream.length - s))).map (fun i => g (s + i)),
        (stream.getD (s - 1) "" :: stream.drop s).getD
          (min c (stream.length - s)) "",
        (stream.drop s).drop c, false) := by
    have hc : ((c : Int)).toNat = c := by omega
    rw [hc]
    have := readHunk_spec c (stream.drop s) (stream.getD (s - 1) "")
      (fun i => g (s + i)) (fun i => ν (s + i))
      (fun i hi => by
        rw [getD_drop]
        exact hread (s + i) (by omega) (by rw [hlen] at hi; omega))
    rw [this, hlen]
  simp only [find_revs, find_revs_go, hf]
  simp only [List.getD_cons_zero, List.getD_cons_succ, htoNat]
  rw [hskip]
  simp only [hne, if_neg (by exact hne), hstart]
  simp only [ite_not, if_pos rfl, hreadH]
  simp [find_revs_go]

/-- C1 (amended): against a fully consistent provenance stream (line `i`
parses to the revision `r i` with number `i`), correlating a sole hunk
with old range `(s, c)` succeeds and attributes exactly the revisions of
lines `s+1` through `min (s+c) L` — one line later than the claimed
`s` through `s+c-1`; the line at `s` is consumed for the consistency
check but never attributed. -/
theorem find_revs_attribution (stream : List String) (h0 : Hunk)
    (s c : Nat) (r : Nat → String)
    (hf : h0.first = [(s : Int), (c : Int)]) (hd : h0.deps = [])
    (hs1 : 1 ≤ s) (hsL : s ≤ stream.length)
    (hwf : ∀ i, i < stream.length →
      stream.getD i "" ≠ "" ∧
      parse_blame_line (stream.getD i "") = some (r (i + 1), (i : Int) + 1)) :
    ∃ dps, find_revs stream [h0] = ([{ h0 with deps := dps }], none) ∧
      ∀ x, x ∈ dps ↔
        ∃ n, s + 1 ≤ n ∧ n ≤ min (s + c) stream.length ∧ x = r n := by
  have h1 : s - 1 < stream.length := by omega
  have hne := (hwf (s - 1) h1).1
  have hstart : parse_blame_line (stream.getD (s - 1) "") =
      some ((fun i => r (i + 1)) (s - 1), (s : Int)) := by
    have h2 := (hwf (s - 1) h1).2
    have e2 : ((s - 1 : Nat) : Int) + 1 = (s : Int) := by omega
    rw [e2] at h2
    exact h2
  have hmain := find_revs_sole stream h0 s c (fun i => r (i + 1))
    (fun i => (i : Int) + 1) hf hs1 hsL hne hstart
    (fun i hi1 hi2 => (hwf i (by omega)).2)
  refine ⟨_, hmain, fun x => ?_⟩
  rw [mem_foldl_setAdd, hd]
  simp only [List.mem_nil_iff, false_or, List.mem_map, List.mem_range]
  constructor
  · rintro ⟨i, hi, rfl⟩
    exact ⟨s + i + 1, by omega, by omega, rfl⟩
  · rintro ⟨n, hn1, hn2, rfl⟩
    refine ⟨n - s - 1, by omega, ?_⟩
    have : s + (n - s - 1) + 1 = n := by omega
    rw [this]

/-- C1 witness: old range (5,3) against the 7-line stream whose lines
5, 6, 7 are authored by A, A, B: the attributed set is that of lines 6
and 7, which here happens to be {A, B}. -/
theorem find_revs_attribution_witness :
    ∃ dps, find_revs stream7 [hunk530] =
        ([{ hunk530 with deps := dps }], none) ∧
      ∀ x, x ∈ dps ↔
        ∃ n, 5 + 1 ≤ n ∧ n ≤ min (5 + 3) stream7.length ∧ x = revOf7 n :=
  find_revs_attribution stream7 hunk530 5 3 revOf7 (by decide) (by decide)
    (by decide) (by decide) (by decide)

/-- C5 (amended): during correlation of a hunk only the line reached by
the skip (at the hunk start line) has its reported number checked — a
mismatch there is the fatal `AssertionError` — while the numbers `ν` of
the `lineCount` lines read for the hunk are parsed but never compared
with the running counter, so correlation returns a dependency set no
matter what they are. -/
theorem find_revs_checks_only_start (stream : List String) (h0 : Hunk)
    (s c : Nat) (g : Nat → String) (ν : Nat → Int)
    (hf : h0.first = [(s : Int), (c : Int)]) (hd : h0.deps = [])
    (hs1 : 1 ≤ s) (hsL : s ≤ stream.length)
    (hne : stream.getD (s - 1) "" ≠ "")
    (hread : ∀ i, s ≤ i → i < min (s + c) stream.length →
      parse_blame_line (stream.getD i "") = some (g i, ν i)) :
    (parse_blame_line (stream.getD (s - 1) "") =
        some (g (s - 1), (s : Int)) →
      ∃ dps, find_revs stream [h0] = ([{ h0 with deps := dps }], none) ∧
        ∀ x, x ∈ dps ↔
          ∃ i, s ≤ i ∧ i < min (s + c) stream.length ∧ x = g i)
    ∧ (∀ rv : String, ∀ m : Int, m ≠ (s : Int) →
      parse_blame_line (stream.getD (s - 1) "") = some (rv, m) →
      find_revs stream [h0] = ([h0], some CorrErr.assertFail)) := by
  constructor
  · intro hstart
    have hmain := find_revs_sole stream h0 s c g ν hf hs1 hsL hne hstart hread
    refine ⟨_, hmain, fun x => ?_⟩
    rw [mem_foldl_setAdd, hd]
    simp only [List.mem_nil_iff, false_or, List.mem_map, List.mem_range]
    constructor
    · rintro ⟨i, hi, rfl⟩
      exact ⟨s + i, by omega, by omega, rfl⟩
    · rintro ⟨n, hn1, hn2, rfl⟩
      refine ⟨n - s, by omega, ?_⟩
      have : s + (n - s) = n := by omega
      rw [this]
  · intro rv m hm hparse
    have htoNat : ((s : Int) - 0).toNat = s := by omega
    have hskip : skipLines s "" stream =
        some (stream.getD (s - 1) "", stream.drop s) := by
      rw [skipLines_eq s "" stream hsL]
      obtain ⟨t, rfl⟩ : ∃ t, s = t + 1 := ⟨s - 1, by omega⟩
      simp [List.getD_cons_succ]
    have hsm : (s : Int) ≠ m := Ne.symm hm
    simp only [find_revs, find_revs_go, hf]
    simp only [List.getD_cons_zero, List.getD_cons_succ, htoNat]
    rw [hskip]
    simp only [if_neg hne, hparse, if_pos hsm]

/-- C5 witness: (a) with hunk (1,1) the read line reporting number 999 is
accepted and its revision B attributed; (b) when the line at the start
line itself reports 7 instead of 1, correlation fails with the fatal
`AssertionError`. -/
theorem find_revs_checks_only_start_witness :
    (∃ dps, find_revs stream99 [hunk11] =
        ([{ hunk11 with deps := dps }], none) ∧
      ∀ x, x ∈ dps ↔
        ∃ i, 1 ≤ i ∧ i < min (1 + 1) stream99.length ∧ x = gAB i) ∧
    find_revs streamA7 [hunk11] = ([hunk11], some CorrErr.assertFail) := by
  constructor
  · exact (find_revs_checks_only_start stream99 hunk11 1 1 gAB nuAB
      (by decide) (by decide) (by decide) (by decide) (by decide)
      (fun i h1 h2 => by
        have : i = 1 := by simp [stream99] at h2; omega
        subst this
        decide)).1 (by decide)
  · exact (find_revs_checks_only_start streamA7 hunk11 1 1 gA nuA
      (by decide) (by decide) (by decide) (by decide) (by decide)
      (fun i h1 h2 => by
        simp [streamA7] at h2
        omega)).2 "A" 7 (by decide) (by decide)

theorem startsWith_char_eq (l p : String) (c : Char) (cp : List Char)
    (hp : p.data = c :: cp) (h : pyStartsWith l p = true) :
    ∃ cs, l.data = c :: cs := by
  unfold pyStartsWith at h
  rw [hp] at h
  cases hl : l.data with
  | nil => rw [hl] at h; simp [List.isPrefixOf] at h
  | cons d ds =>
    rw [hl] at h
    simp [List.isPrefixOf] at h
    exact ⟨ds, by rw [h.1]⟩

theorem not_path_of_hunk (l : String) (h : pyStartsWith l "@@ -" = true) :
    pyStartsWith l "+++ b/" = false := by
  cases hb : pyStartsWith l "+++ b/" with
  | false => rfl
  | true =>
    obtain ⟨cs, hcs⟩ := startsWith_char_eq l "@@ -" '@' ['@', ' ', '-']
      (by decide) h
    obtain ⟨ds, hds⟩ := startsWith_char_eq l "+++ b/" '+'
      ['+', '+', ' ', 'b', '/'] (by decide) hb
    rw [hcs] at hds
    simp at hds

theorem parse_hunks_go_assert (parent child : String) :
    ∀ (ls : List String) (acc : List Hunk) (k : Nat),
    k < ls.length →
    pyStartsWith (ls.getD k "") "@@ -" = true →
    (∀ j, j < k → pyStartsWith (ls.getD j "") "+++ b/" = false) →
    parse_hunks_go parent child ls none acc = .error .assertPath := by
  intro ls
  induction ls with
  | nil => intro acc k hk _ _; simp at hk
  | cons l ls ih =>
    intro acc k hk hhunk hnopath
    by_cases hpl : pyStartsWith l "+++ b/" = true
    · cases k with
      | zero =>
        have hd := not_path_of_hunk l (by simpa using hhunk)
        rw [hd] at hpl
        exact absurd hpl (by simp)
      | succ k =>
        have h0 := hnopath 0 (Nat.succ_pos k)
        simp only [List.getD_cons_zero] at h0
        rw [h0] at hpl
        exact absurd hpl (by simp)
    · have hplf : pyStartsWith l "+++ b/" = false := by
        simpa using hpl
      by_cases hhl : pyStartsWith l "@@ -" = true
      · simp [parse_hunks_go, hplf, hhl]
      · cases k with
        | zero => exact absurd (by simpa using hhunk) hhl
        | succ k =>
          have hrec := ih acc k (by simpa using hk) (by simpa using hhunk)
            (fun j hj => by
              have := hnopath (j + 1) (by omega)
              simpa using this)
          have hhlf : pyStartsWith l "@@ -" = false := by simpa using hhl
          simp only [parse_hunks_go, hplf, hhlf, Bool.false_eq_true,
            if_false]
          exact hrec

theorem parse_hunks_go_ok (parent child : String) :
    ∀ (ls : List String) (path : Option String) (acc : List Hunk),
    wellFormedDiff parent child ls path = true →
    ∃ hs, parse_hunks_go parent child ls path acc = .ok hs := by
  intro ls
  induction ls with
  | nil => intro path acc _; exact ⟨acc, rfl⟩
  | cons l ls ih =>
    intro path acc h
    by_cases hp : pyStartsWith l "+++ b/" = true
    · simp only [wellFormedDiff, hp, if_true] at h
      simp only [parse_hunks_go, hp, if_true]
      exact ih _ _ h
    · have hpf : pyStartsWith l "+++ b/" = false := by simpa using hp
      by_cases hh : pyStartsWith l "@@ -" = true
      · cases path with
        | none =>
          simp [wellFormedDiff, hpf, hh] at h
        | some p =>
          simp only [wellFormedDiff, hpf, hh, Bool.false_eq_true, if_false,
            if_true, Bool.and_eq_true, decide_eq_true_eq] at h
          obtain ⟨⟨hpne, hsome⟩, hwf⟩ := h
          obtain ⟨hk, hfl⟩ := Option.isSome_iff_exists.mp hsome
          simp only [parse_hunks_go, hpf, hh, Bool.false_eq_true, if_false,
            if_true, if_neg hpne, hfl]
          exact ih _ _ hwf
      · have hhf : pyStartsWith l "@@ -" = false := by simpa using hh
        simp only [wellFormedDiff, hpf, hhf, Bool.false_eq_true, if_false] at h
        simp only [parse_hunks_go, hpf, hhf, Bool.false_eq_true, if_false]
        exact ih _ _ h

/-- C9: a hunk header appearing before any path header makes the parser
fail with the fatal failed `assert path`; conversely, on well-formed
streams — every hunk header parseable and covered by a closest preceding
path header establishing a nonempty path — parsing succeeds. -/
theorem parse_hunks_path_contract (stream : List String)
    (parent child : String) :
    ((∃ k, k < stream.length ∧
        pyStartsWith (stream.getD k "") "@@ -" = true ∧
        ∀ j, j < k → pyStartsWith (stream.getD j "") "+++ b/" = false) →
      parse_hunks stream parent child = .error .assertPath) ∧
    (wellFormedDiff parent child stream none = true →
      ∃ hs, parse_hunks stream parent child = .ok hs) := by
  constructor
  · rintro ⟨k, hk, hh, hnp⟩
    exact parse_hunks_go_assert parent child stream [] k hk hh hnp
  · intro h
    exact parse_hunks_go_ok parent child stream none [] h

/-- C9 witness: a lone hunk header is rejected with the failed assert; a
hunk header preceded by `+++ b/f.txt` parses fine. -/
theorem parse_hunks_path_contract_witness :
    parse_hunks ["@@ -1,2 +1,2 @@"] "p" "c" = .error .assertPath ∧
    ∃ hs, parse_hunks ["+++ b/f.txt", "@@ -1,2 +1,2 @@"] "p" "c" = .ok hs := by
  constructor
  · exact (parse_hunks_path_contract ["@@ -1,2 +1,2 @@"] "p" "c").1
      ⟨0, by decide, by decide, fun j hj => absurd hj (by omega)⟩
  · exact (parse_hunks_path_contract ["+++ b/f.txt", "@@ -1,2 +1,2 @@"]
      "p" "c").2 (by decide)

theorem readHunk_stream_subset (n : Nat) (line : String) (s : List String) :
    ∀ x ∈ (readHunk n line s).2.2.1, x ∈ s := by
  induction n generalizing line s with
  | zero => simp [readHunk]
  | succ n ih =>
    cases s with
    | nil => simp [readHunk]
    | cons y ys =>
      cases hp : parse_blame_line y with
      | none =>
        simp only [readHunk, hp]
        intro x hx
        exact List.mem_cons_of_mem y hx
      | some pr =>
        simp only [readHunk, hp]
        intro x hx
        exact List.mem_cons_of_mem y (ih y ys x hx)

theorem readHunk_revs_from (n : Nat) (line : String) (s : List String) :
    ∀ x ∈ (readHunk n line s).1,
      ∃ l, l ∈ s ∧ ∃ k, parse_blame_line l = some (x, k) := by
  induction n generalizing line s with
  | zero => simp [readHunk]
  | succ n ih =>
    cases s with
    | nil => simp [readHunk]
    | cons y ys =>
      cases hp : parse_blame_line y with
      | none => simp [readHunk, hp]
      | some pr =>
        obtain ⟨rv, k⟩ := pr
        simp only [readHunk, hp, List.mem_cons]
        rintro x (rfl | hx)
        · exact ⟨y, Or.inl rfl, k, hp⟩
        · obtain ⟨l, hl, hk⟩ := ih y ys x hx
          exact ⟨l, Or.inr hl, hk⟩

theorem find_revs_go_frame (hs : List Hunk) (stream : List String)
    (last : Int) (line : String) :
    ((find_revs_go stream last line hs).1.length = hs.length) ∧
    (∀ j, j < hs.length →
      ((find_revs_go stream last line hs).1.getD j hunk0 =
        { hs.getD j hunk0 with
          deps := ((find_revs_go stream last line hs).1.getD j hunk0).deps }) ∧
      (∀ x ∈ (hs.getD j hunk0).deps,
        x ∈ ((find_revs_go stream last line hs).1.getD j hunk0).deps) ∧
      (∀ x ∈ ((find_revs_go stream last line hs).1.getD j hunk0).deps,
        x ∈ (hs.getD j hunk0).deps ∨
        ∃ l, l ∈ stream ∧ ∃ k, parse_blame_line l = some (x, k))) := by
  induction hs generalizing stream last line with
  | nil => simp [find_revs_go]
  | cons h hs ih =>
    cases hsk : skipLines ((h.first.getD 0 0) - last).toNat line stream with
    | none =>
      have hgo : find_revs_go stream last line (h :: hs) =
          (h :: hs, some CorrErr.stopIter) := by
        simp only [find_revs_go]
        rw [hsk]
      rw [hgo]
      exact ⟨rfl, fun j hj => ⟨rfl, fun x hx => hx, fun x hx => Or.inl hx⟩⟩
    | some pr =>
      obtain ⟨ln, st2⟩ := pr
      have hst2 : ∀ x ∈ st2, x ∈ stream := by
        have hd := skipLines_some_drop _ line ln stream st2 hsk
        intro x hx
        rw [hd] at hx
        exact List.drop_subset _ _ hx
      by_cases hln : ln = ""
      · have hgo : find_revs_go stream last line (h :: hs) =
            (h :: hs, none) := by
          simp only [find_revs_go]
          rw [hsk]
          simp [hln]
        rw [hgo]
        exact ⟨rfl, fun j hj => ⟨rfl, fun x hx => hx, fun x hx => Or.inl hx⟩⟩
      · cases hpb : parse_blame_line ln with
        | none =>
          have hgo : find_revs_go stream last line (h :: hs) =
              (h :: hs, some CorrErr.valueErr) := by
            simp only [find_revs_go]
            rw [hsk]
            simp [hln, hpb]
          rw [hgo]
          exact ⟨rfl, fun j hj => ⟨rfl, fun x hx => hx, fun x hx => Or.inl hx⟩⟩
        | some pr2 =>
          obtain ⟨rv, num⟩ := pr2
          by_cases hnum : (h.first.getD 0 0) ≠ num
          · have hgo : find_revs_go stream last line (h :: hs) =
                (h :: hs, some CorrErr.assertFail) := by
              simp only [find_revs_go]
              rw [hsk]
              simp [hln, hpb, hnum]
              exact fun h2 => absurd h2 (by simpa using hnum)
            rw [hgo]
            exact ⟨rfl, fun j hj => ⟨rfl, fun x hx => hx, fun x hx => Or.inl hx⟩⟩
          · have heq : h.first.getD 0 0 = num := not_ne_iff.mp hnum
            subst heq
            cases hfat : (readHunk (h.first.getD 1 0).toNat ln st2).2.2.2 with
            | true =>
              have hgo : find_revs_go stream last line (h :: hs) =
                  ({ h with deps := List.foldl setAdd h.deps (readHunk (h.first.getD 1 0).toNat ln st2).1 } ::
                    hs, some CorrErr.valueErr) := by
                simp only [find_revs_go]
                rw [hsk]
                simp [hln, hpb, hfat]
                exact fun h2 => absurd hfat (by simp [h2])
              rw [hgo]
              refine ⟨rfl, fun j hj => ?_⟩
              cases j with
              | zero =>
                refine ⟨rfl, fun x hx => ?_, fun x hx => ?_⟩
                · simp only [List.getD_cons_zero]
                  exact (mem_foldl_setAdd _ _ _).mpr (Or.inl hx)
                · simp only [List.getD_cons_zero] at hx
                  rcases (mem_foldl_setAdd _ _ _).mp hx with hx | hx
                  · exact Or.inl hx
                  · obtain ⟨l, hl, hk⟩ := readHunk_revs_from _ ln st2 x hx
                    exact Or.inr ⟨l, hst2 l hl, hk⟩
              | succ j =>
                exact ⟨rfl, fun x hx => hx, fun x hx => Or.inl hx⟩
            | false =>
              have hgo : find_revs_go stream last line (h :: hs) =
                  ({ h with deps := List.foldl setAdd h.deps (readHunk (h.first.getD 1 0).toNat ln st2).1 } ::
                    (find_revs_go
                      (readHunk (h.first.getD 1 0).toNat ln st2).2.2.1
                      ((h.first.getD 0 0) + (h.first.getD 1 0))
                      (readHunk (h.first.getD 1 0).toNat ln st2).2.1 hs).1,
                    (find_revs_go
                      (readHunk (h.first.getD 1 0).toNat ln st2).2.2.1
                      ((h.first.getD 0 0) + (h.first.getD 1 0))
                      (readHunk (h.first.getD 1 0).toNat ln st2).2.1 hs).2) := by
                simp only [find_revs_go]
                rw [hsk]
                simp [hln, hpb, hfat]
                exact fun h2 => absurd h2 (by simpa using hfat)
              have hst3 : ∀ x ∈ (readHunk (h.first.getD 1 0).toNat ln st2).2.2.1,
                  x ∈ stream := by
                intro x hx
                exact hst2 x (readHunk_stream_subset _ ln st2 x hx)
              have ihx := ih (readHunk (h.first.getD 1 0).toNat ln st2).2.2.1
                ((h.first.getD 0 0) + (h.first.getD 1 0))
                (readHunk (h.first.getD 1 0).toNat ln st2).2.1
              rw [hgo]
              refine ⟨by simpa using ihx.1, fun j hj => ?_⟩
              cases j with
              | zero =>
                refine ⟨rfl, fun x hx => ?_, fun x hx => ?_⟩
                · simp only [List.getD_cons_zero]
                  exact (mem_foldl_setAdd _ _ _).mpr (Or.inl hx)
                · simp only [List.getD_cons_zero] at hx
                  rcases (mem_foldl_setAdd _ _ _).mp hx with hx | hx
                  · exact Or.inl hx
                  · obtain ⟨l, hl, hk⟩ := readHunk_revs_from _ ln st2 x hx
                    exact Or.inr ⟨l, hst2 l hl, hk⟩
              | succ j =>
                have hj2 : j < hs.length := by simpa using hj
                obtain ⟨hfr, hgr, hpr⟩ := ihx.2 j hj2
                simp only [List.getD_cons_succ]
                refine ⟨hfr, hgr, fun x hx => ?_⟩
                rcases hpr x hx with hx2 | ⟨l, hl, hk⟩
                · exact Or.inl hx2
                · exact Or.inr ⟨l, hst3 l hl, hk⟩

theorem mapO_some_spec (f : α → Option β) :
    ∀ (l : List α) (out : List β), mapO f l = some out →
    ∃ hlen : out.length = l.length,
      ∀ i (hi : i < l.length), f (l.get ⟨i, hi⟩) =
        some (out.get ⟨i, by omega⟩) := by
  intro l
  induction l with
  | nil =>
    intro out h
    simp [mapO] at h
    subst h
    exact ⟨rfl, fun i hi => absurd hi (by simp)⟩
  | cons x xs ih =>
    intro out h
    simp only [mapO] at h
    cases hf : f x with
    | none => rw [hf] at h; simp at h
    | some y =>
      rw [hf] at h
      cases hm : mapO f xs with
      | none => rw [hm] at h; simp at h
      | some ys =>
        rw [hm] at h
        simp only [Option.some.injEq] at h
        subst h
        obtain ⟨hlen, hget⟩ := ih ys hm
        refine ⟨by simp [hlen], fun i hi => ?_⟩
        cases i with
        | zero => simpa using hf
        | succ i => simpa using hget i (by simpa using hi)

theorem mem_zip_getElem (l1 : List α) (l2 : List β) (p : α × β)
    (h : p ∈ l1.zip l2) :
    ∃ j, ∃ (h1 : j < l1.length) (h2 : j < l2.length),
      l1.get ⟨j, h1⟩ = p.1 ∧ l2.get ⟨j, h2⟩ = p.2 := by
  obtain ⟨⟨j, hj⟩, hp⟩ := List.mem_iff_get.mp h
  rw [List.get_zip] at hp
  have hj1 : j < l1.length := by
    simp [List.length_zip] at hj
    omega
  have hj2 : j < l2.length := by
    simp [List.length_zip] at hj
    omega
  exact ⟨j, hj1, hj2, congrArg Prod.fst hp, congrArg Prod.snd hp⟩

theorem mem_range_zip (l : List α) (i : Nat) (a : α) (n : Nat)
    (h : (i, a) ∈ (List.range n).zip l) :
    ∃ hlt : i < l.length, l.get ⟨i, hlt⟩ = a := by
  obtain ⟨j, h1, h2, hr, hl⟩ := mem_zip_getElem (List.range n) l (i, a) h
  have hj : j = i := by
    have hr2 := hr
    simp [List.get_range] at hr2
    exact hr2
  subst hj
  have hl2 : l.get ⟨j, h2⟩ = a := by simpa using hl
  exact ⟨h2, hl2⟩

theorem zip_find_frame (blameL : String → String → List String)
    (k1 k2 : String) (grp : List (Nat × Hunk)) :
    ∀ p ∈ (grp.map Prod.fst).zip (find_revs (blameL k1 k2)
      (grp.map Prod.snd)).1,
      ∃ h, (p.1, h) ∈ grp ∧ p.2 = { h with deps := p.2.deps } ∧
        (∀ x ∈ h.deps, x ∈ p.2.deps) ∧
        (∀ x ∈ p.2.deps, x ∈ h.deps ∨
          ∃ rev path l kk, l ∈ blameL rev path ∧
            parse_blame_line l = some (x, kk)) := by
  intro p hp
  simp only [find_revs] at hp
  obtain ⟨j, h1, h2, hfst, hsnd⟩ :=
    mem_zip_getElem (grp.map Prod.fst) (find_revs_go (blameL k1 k2) 0 ""
      (grp.map Prod.snd)).1 p hp
  have hjg : j < grp.length := by simpa using h1
  have hjs : j < (grp.map Prod.snd).length := by simpa using hjg
  obtain ⟨hlen, hspec⟩ := find_revs_go_frame (grp.map Prod.snd)
    (blameL k1 k2) 0 ""
  obtain ⟨hframe, hgrow, hprov⟩ := hspec j hjs
  have hgetD1 : (find_revs_go (blameL k1 k2) 0 ""
      (grp.map Prod.snd)).1.getD j hunk0 = p.2 := by
    rw [List.getD_eq_get _ _ h2]
    exact hsnd
  have hgetD2 : (grp.map Prod.snd).getD j hunk0 = (grp.get ⟨j, hjg⟩).2 := by
    rw [List.getD_eq_get _ _ hjs]
    simp
  refine ⟨(grp.get ⟨j, hjg⟩).2, ?_, ?_, ?_, ?_⟩
  · have heq : (p.1, (grp.get ⟨j, hjg⟩).2) = grp.get ⟨j, hjg⟩ := by
      rw [← hfst]
      simp
    rw [heq]
    exact List.get_mem grp j hjg
  · rw [← hgetD1, ← hgetD2]
    exact hframe
  · intro x hx
    rw [← hgetD1]
    apply hgrow
    rw [hgetD2]
    exact hx
  · intro x hx
    rw [← hgetD1] at hx
    rcases hprov x hx with hx2 | ⟨l, hl, kk, hk⟩
    · rw [hgetD2] at hx2
      exact Or.inl hx2
    · exact Or.inr ⟨k1, k2, l, kk, hl, hk⟩

theorem processGroups_spec (blameL : String → String → List String) :
    ∀ (ks : List (String × String)) (indexed : List (Nat × Hunk)),
    ∀ p ∈ (processGroups blameL ks indexed).1,
      ∃ h, (p.1, h) ∈ indexed ∧ p.2 = { h with deps := p.2.deps } ∧
        (∀ x ∈ h.deps, x ∈ p.2.deps) ∧
        (∀ x ∈ p.2.deps, x ∈ h.deps ∨
          ∃ rev path l kk, l ∈ blameL rev path ∧
            parse_blame_line l = some (x, kk)) := by
  intro ks
  induction ks with
  | nil => intro indexed p hp; simp [processGroups] at hp
  | cons k ks ih =>
    intro indexed p hp
    simp only [processGroups] at hp
    split at hp
    · obtain ⟨h, hmem, hfr, hgr, hpr⟩ := zip_find_frame blameL k.1 k.2
        (indexed.filter (fun q => (q.2.parent, q.2.path) = k)) p hp
      exact ⟨h, List.mem_of_mem_filter hmem, hfr, hgr, hpr⟩
    · rcases List.mem_append.mp hp with hp1 | hp2
      · obtain ⟨h, hmem, hfr, hgr, hpr⟩ := zip_find_frame blameL k.1 k.2
          (indexed.filter (fun q => (q.2.parent, q.2.path) = k)) p hp1
        exact ⟨h, List.mem_of_mem_filter hmem, hfr, hgr, hpr⟩
      · exact ih indexed p hp2

theorem reduce_context_deps (h h2 : Hunk)
    (hr : reduce_context h = some h2) : h2.deps = h.deps := by
  unfold reduce_context at hr
  split at hr
  · simp only [Option.some.injEq] at hr
    subst hr
    rfl
  · simp at hr

theorem blame_hunks_spec (blameL : String → String → List String)
    (hunks : List Hunk) :
    (blame_hunks blameL hunks).1.length = hunks.length ∧
    ∀ i, i < hunks.length →
      ((blame_hunks blameL hunks).1.getD i hunk0 =
        { hunks.getD i hunk0 with
          deps := ((blame_hunks blameL hunks).1.getD i hunk0).deps }) ∧
      (∀ x ∈ (hunks.getD i hunk0).deps,
        x ∈ ((blame_hunks blameL hunks).1.getD i hunk0).deps) ∧
      (∀ x ∈ ((blame_hunks blameL hunks).1.getD i hunk0).deps,
        x ∈ (hunks.getD i hunk0).deps ∨
        ∃ rev path l kk, l ∈ blameL rev path ∧
          parse_blame_line l = some (x, kk)) := by
  cases hm : mapO reduce_context hunks with
  | none =>
    have hout : blame_hunks blameL hunks = (hunks, some CorrErr.typeErr) := by
      simp only [blame_hunks, hm]
    rw [hout]
    exact ⟨rfl, fun i hi => ⟨rfl, fun x hx => hx, fun x hx => Or.inl hx⟩⟩
  | some reduced =>
    obtain ⟨hrlen, hrget⟩ := mapO_some_spec reduce_context hunks reduced hm
    have hout : (blame_hunks blameL hunks).1 =
        ((List.range hunks.length).zip hunks).map (fun p =>
          match (processGroups blameL
              (dedupKeys (reduced.map (fun h => (h.parent, h.path))))
              ((List.range reduced.length).zip reduced)).1.find?
              (fun q => q.1 = p.1) with
          | some q => { p.2 with deps := q.2.deps }
          | none => p.2) := by
      simp only [blame_hunks, hm]
    have hzlen : (((List.range hunks.length).zip hunks)).length =
        hunks.length := by
      simp [List.length_zip]
    refine ⟨by rw [hout]; simp [hzlen], fun i hi => ?_⟩
    have hzi : i < (((List.range hunks.length).zip hunks)).length := by
      omega
    have hzget : ((List.range hunks.length).zip hunks).get ⟨i, hzi⟩ =
        (i, hunks.get ⟨i, hi⟩) := by
      rw [List.get_zip]
      simp [List.get_range]
    have hgetD : (blame_hunks blameL hunks).1.getD i hunk0 =
        (match (processGroups blameL
            (dedupKeys (reduced.map (fun h => (h.parent, h.path))))
            ((List.range reduced.length).zip reduced)).1.find?
            (fun q => q.1 = i) with
        | some q => { hunks.get ⟨i, hi⟩ with deps := q.2.deps }
        | none => hunks.get ⟨i, hi⟩) := by
      have hq : ((List.range hunks.length).zip hunks).get? i =
          some (i, hunks.get ⟨i, hi⟩) := by
        rw [List.get?_eq_get hzi, hzget]
      rw [hout, List.getD_eq_getD_get?, List.get?_map, hq]
      rfl
    have hgetDh : hunks.getD i hunk0 = hunks.get ⟨i, hi⟩ := by
      rw [List.getD_eq_get _ _ hi]
    cases hfind : (processGroups blameL
        (dedupKeys (reduced.map (fun h => (h.parent, h.path))))
        ((List.range reduced.length).zip reduced)).1.find?
        (fun q => q.1 = i) with
    | none =>
      rw [hfind] at hgetD
      simp only [] at hgetD
      rw [hgetD, hgetDh]
      exact ⟨rfl, fun x hx => hx, fun x hx => Or.inl hx⟩
    | some q =>
      rw [hfind] at hgetD
      simp only [] at hgetD
      have hq1 : q.1 = i := by
        have hps := List.find?_some hfind
        simpa using hps
      have hqmem : q ∈ (processGroups blameL
          (dedupKeys (reduced.map (fun h => (h.parent, h.path))))
          ((List.range reduced.length).zip reduced)).1 :=
        List.mem_of_find?_eq_some hfind
      obtain ⟨h, hmem, hfr, hgr, hpr⟩ := processGroups_spec blameL _ _ q hqmem
      obtain ⟨hlt, hgt⟩ := mem_range_zip reduced q.1 h reduced.length hmem
      have hlt2 : i < reduced.length := by omega
      have hdeps : h.deps = (hunks.get ⟨i, hi⟩).deps := by
        have hgt2 : reduced.get ⟨i, hlt2⟩ = h := by
          rw [← hgt]
          congr 1
          simp [hq1]
        have hred := hrget i hi
        rw [hgt2] at hred
        exact reduce_context_deps _ _ hred
      refine ⟨?_, ?_, ?_⟩
      · rw [hgetD, hgetDh]
      · intro x hx
        rw [hgetD]
        rw [hgetDh] at hx
        exact hgr x (by rw [hdeps]; exact hx)
      · intro x hx
        rw [hgetD] at hx
        rw [hgetDh]
        rcases hpr x hx with hx2 | hx2
        · rw [hdeps] at hx2
          exact Or.inl hx2
        · exact Or.inr hx2

/-- C10: correlation (`blame_hunks` = context reduction followed by
revision collection) returns the hunks with every field other than the
dependency set unchanged, and the dependency set only grows — whatever
the blame streams contain and however the run ends. -/
theorem blame_hunks_frame (blameL : String → String → List String)
    (hunks : List Hunk) :
    (blame_hunks blameL hunks).1.length = hunks.length ∧
    ∀ i, i < hunks.length →
      ((blame_hunks blameL hunks).1.getD i hunk0 =
        { hunks.getD i hunk0 with
          deps := ((blame_hunks blameL hunks).1.getD i hunk0).deps }) ∧
      ∀ x ∈ (hunks.getD i hunk0).deps,
        x ∈ ((blame_hunks blameL hunks).1.getD i hunk0).deps :=
  ⟨(blame_hunks_spec blameL hunks).1, fun i hi =>
    ⟨((blame_hunks_spec blameL hunks).2 i hi).1,
      ((blame_hunks_spec blameL hunks).2 i hi).2.1⟩⟩

/-- C10 witness: one hunk, against a 3-line blame stream: the output
hunk differs from `hunk15` only in `deps`, and the old (empty) set is
contained in the new one. -/
theorem blame_hunks_frame_witness :
    (blame_hunks (fun _ _ => stream3) [hunk15]).1.length =
      [hunk15].length ∧
    ((blame_hunks (fun _ _ => stream3) [hunk15]).1.getD 0 hunk0 =
      { [hunk15].getD 0 hunk0 with
        deps := ((blame_hunks (fun _ _ => stream3)
          [hunk15]).1.getD 0 hunk0).deps }) ∧
    ∀ x ∈ ([hunk15].getD 0 hunk0).deps,
      x ∈ ((blame_hunks (fun _ _ => stream3) [hunk15]).1.getD 0 hunk0).deps :=
  ⟨(blame_hunks_frame (fun _ _ => stream3) [hunk15]).1,
    ((blame_hunks_frame (fun _ _ => stream3) [hunk15]).2 0 (by decide)).1,
    ((blame_hunks_frame (fun _ _ => stream3) [hunk15]).2 0 (by decide)).2⟩

theorem from_line_deps (p c pa l : String) (h : Hunk)
    (hf : Hunk.from_line p c pa l = some h) : h.deps = [] := by
  simp only [Hunk.from_line] at hf
  split at hf
  · exact absurd hf (by simp)
  · split at hf
    all_goals first
      | (simp only [Option.some.injEq] at hf
         subst hf
         rfl)
      | exact absurd hf (by simp)

theorem parse_hunks_go_deps (parent child : String) :
    ∀ (ls : List String) (path : Option String) (acc : List Hunk),
    (∀ h ∈ acc, h.deps = []) →
    ∀ hs, parse_hunks_go parent child ls path acc = .ok hs →
    ∀ h ∈ hs, h.deps = [] := by
  intro ls
  induction ls with
  | nil =>
    intro path acc hacc hs hok
    simp only [parse_hunks_go] at hok
    cases hok
    exact hacc
  | cons l ls ih =>
    intro path acc hacc hs hok
    by_cases hp : pyStartsWith l "+++ b/" = true
    · simp only [parse_hunks_go, if_pos hp] at hok
      exact ih _ _ hacc hs hok
    · by_cases hh : pyStartsWith l "@@ -" = true
      · cases path with
        | none =>
          simp only [parse_hunks_go, if_neg hp, if_pos hh] at hok
          exact absurd hok (by simp)
        | some pth =>
          simp only [parse_hunks_go, if_neg hp, if_pos hh] at hok
          by_cases hpe : pth = ""
          · rw [if_pos hpe] at hok
            exact absurd hok (by simp)
          · rw [if_neg hpe] at hok
            cases hfl : Hunk.from_line parent child pth l with
            | none =>
              rw [hfl] at hok
              exact absurd hok (by simp)
            | some hk =>
              rw [hfl] at hok
              refine ih _ _ ?_ hs hok
              intro h2 hh2
              rcases List.mem_append.mp hh2 with h3 | h3
              · exact hacc h2 h3
              · rw [List.mem_singleton.mp h3]
                exact from_line_deps _ _ _ _ hk hfl
      · simp only [parse_hunks_go, if_neg hp, if_neg hh] at hok
        exact ih _ _ hacc hs hok

theorem parse_hunks_deps (stream : List String) (parent child : String)
    (hs : List Hunk) (hok : parse_hunks stream parent child = .ok hs) :
    ∀ h ∈ hs, h.deps = [] :=
  parse_hunks_go_deps parent child stream none [] (by simp) hs hok

theorem parse_all_deps (o : Oracle) (base : String) :
    ∀ (ps : List String) (hs : List Hunk),
    parse_all o base ps = .ok hs → ∀ h ∈ hs, h.deps = [] := by
  intro ps
  induction ps with
  | nil =>
    intro hs hok
    simp only [parse_all] at hok
    cases hok
    simp
  | cons p ps ih =>
    intro hs hok
    simp only [parse_all] at hok
    cases hph : parse_hunks (o.diffL p base) p base with
    | error e => rw [hph] at hok; simp at hok
    | ok hs1 =>
      rw [hph] at hok
      cases hpa : parse_all o base ps with
      | error e => rw [hpa] at hok; simp at hok
      | ok hs2 =>
        rw [hpa] at hok
        simp only [Except.ok.injEq] at hok
        subst hok
        intro h hh
        rcases List.mem_append.mp hh with h3 | h3
        · exact parse_hunks_deps _ _ _ _ hph h h3
        · exact ih hs2 hpa h h3

theorem mem_dedupDeps (hs : List Hunk) (x : String) :
    x ∈ dedupDeps hs ↔ ∃ h ∈ hs, x ∈ h.deps := by
  have hgen : ∀ (l : List Hunk) (acc : List String),
      x ∈ l.foldl (fun acc h => h.deps.foldl setAdd acc) acc ↔
      x ∈ acc ∨ ∃ h ∈ l, x ∈ h.deps := by
    intro l
    induction l with
    | nil => simp
    | cons h hs ih =>
      intro acc
      simp only [List.foldl_cons, ih, mem_foldl_setAdd]
      constructor
      · rintro ((hx | hx) | ⟨h2, hm, hx⟩)
        · exact Or.inl hx
        · exact Or.inr ⟨h, List.mem_cons_self h hs, hx⟩
        · exact Or.inr ⟨h2, List.mem_cons_of_mem h hm, hx⟩
      · rintro (hx | ⟨h2, hm, hx⟩)
        · exact Or.inl (Or.inl hx)
        · rcases List.mem_cons.mp hm with rfl | hm2
          · exact Or.inl (Or.inr hx)
          · exact Or.inr ⟨h2, hm2, hx⟩
  simpa using hgen hs []

theorem blame_hunks_deps_provenance (blameL : String → String → List String)
    (hunks : List Hunk) (hempty : ∀ h ∈ hunks, h.deps = []) :
    ∀ h ∈ (blame_hunks blameL hunks).1, ∀ x ∈ h.deps,
      ∃ rev path l kk, l ∈ blameL rev path ∧
        parse_blame_line l = some (x, kk) := by
  intro h hmem x hx
  obtain ⟨⟨i, hi⟩, hget⟩ := List.mem_iff_get.mp hmem
  have hlen := (blame_hunks_spec blameL hunks).1
  have hi2 : i < hunks.length := by omega
  obtain ⟨hfr, hgr, hpr⟩ := (blame_hunks_spec blameL hunks).2 i hi2
  have hD : (blame_hunks blameL hunks).1.getD i hunk0 = h := by
    rw [List.getD_eq_get _ _ hi]
    exact hget
  rw [hD] at hpr
  rcases hpr x hx with h2 | h2
  · have hnil : (hunks.getD i hunk0).deps = [] := by
      have hmem2 : hunks.getD i hunk0 ∈ hunks := by
        rw [List.getD_eq_get _ _ hi2]
        exact List.get_mem hunks i hi2
      exact hempty _ hmem2
    rw [hnil] at h2
    simp at h2
  · exact h2

theorem digFoldAux_good (o : Oracle)
    (rec : String → Nat → List String → DigTrace × List String × Option DigErr)
    (Hrec : ∀ d depth2 seen2, d ∈ seen2 → GoodRun o d seen2 (rec d depth2 seen2)) :
    ∀ (ds : List String) (depth : Nat) (seen : List String),
    (∀ d ∈ ds, RevOf o d) →
    FoldGood o seen (digFoldAux rec depth ds seen) := by
  intro ds
  induction ds with
  | nil =>
    intro depth seen hds
    exact ⟨[], by simp [digFoldAux], by simp, by simp, by simp [digFoldAux],
      by simp [digFoldAux]⟩
  | cons d ds ih =>
    intro depth seen hds
    by_cases hd : d ∈ seen
    · obtain ⟨Δ, hseen, hfresh, hnd, hexp, hexnd⟩ := ih depth seen
        (fun d2 hd2 => hds d2 (List.mem_cons_of_mem d hd2))
      refine ⟨Δ, ?_, hfresh, hnd, ?_, ?_⟩
      · simp only [digFoldAux, if_pos hd]
        exact hseen
      · simp only [digFoldAux, if_pos hd]
        exact hexp
      · simp only [digFoldAux, if_pos hd]
        exact hexnd
    · have hdm : d ∈ seen ++ [d] := by simp
      obtain ⟨Δ1, hseen1, hfresh1, hnd1, hexp1, hexnd1⟩ :=
        Hrec d (depth + 1) (seen ++ [d]) hdm
      have hrevd : RevOf o d := hds d (List.mem_cons_self d ds)
      cases herr : (rec d (depth + 1) (seen ++ [d])).2.2 with
      | some e =>
        have hout : digFoldAux rec depth (d :: ds) seen =
            ([(d, depth, false)] ++ (rec d (depth + 1) (seen ++ [d])).1.emits,
              (rec d (depth + 1) (seen ++ [d])).1.expanded,
              (rec d (depth + 1) (seen ++ [d])).2.1, some e) := by
          simp only [digFoldAux, if_neg hd, herr]
        rw [FoldGood, hout]
        refine ⟨[d] ++ Δ1, ?_, ?_, ?_, ?_, ?_⟩
        · rw [hseen1]
          simp
        · intro x hx
          rcases List.mem_append.mp hx with hx2 | hx2
          · rw [List.mem_singleton.mp hx2]
            exact ⟨hd, hrevd⟩
          · have := hfresh1 x hx2
            exact ⟨fun hc => this.1 (List.mem_append_left [d] hc), this.2⟩
        · rw [List.nodup_append]
          refine ⟨by simp, hnd1, ?_⟩
          intro a ha hc
          rw [List.mem_singleton.mp ha] at hc
          exact (hfresh1 d hc).1 (by simp)
        · intro r hr
          rcases hexp1 r hr with rfl | hr2
          · exact List.mem_append_left _ (by simp)
          · exact List.mem_append_right _ hr2
        · exact hexnd1
      | none =>
        obtain ⟨Δ2, hseen2, hfresh2, hnd2, hexp2, hexnd2⟩ :=
          ih depth (rec d (depth + 1) (seen ++ [d])).2.1
            (fun d2 hd2 => hds d2 (List.mem_cons_of_mem d hd2))
        have hout : digFoldAux rec depth (d :: ds) seen =
            ((d, depth, false) :: (rec d (depth + 1) (seen ++ [d])).1.emits ++
              (digFoldAux rec depth ds
                (rec d (depth + 1) (seen ++ [d])).2.1).1,
              (rec d (depth + 1) (seen ++ [d])).1.expanded ++
                (digFoldAux rec depth ds
                  (rec d (depth + 1) (seen ++ [d])).2.1).2.1,
              (digFoldAux rec depth ds
                (rec d (depth + 1) (seen ++ [d])).2.1).2.2.1,
              (digFoldAux rec depth ds
                (rec d (depth + 1) (seen ++ [d])).2.1).2.2.2) := by
          simp only [digFoldAux, if_neg hd, herr]
        rw [FoldGood, hout]
        have hsub1 : ∀ x ∈ Δ1, x ∈ (rec d (depth + 1) (seen ++ [d])).2.1 := by
          intro x hx
          rw [hseen1]
          exact List.mem_append_right _ hx
        have hdin : d ∈ (rec d (depth + 1) (seen ++ [d])).2.1 := by
          rw [hseen1]
          exact List.mem_append_left _ (by simp)
        refine ⟨[d] ++ Δ1 ++ Δ2, ?_, ?_, ?_, ?_, ?_⟩
        · rw [hseen2, hseen1]
          simp
        · intro x hx
          rcases List.mem_append.mp hx with hx2 | hx2
          · rcases List.mem_append.mp hx2 with hx3 | hx3
            · rw [List.mem_singleton.mp hx3]
              exact ⟨hd, hrevd⟩
            · have := hfresh1 x hx3
              exact ⟨fun hc => this.1 (List.mem_append_left [d] hc), this.2⟩
          · have := hfresh2 x hx2
            refine ⟨fun hc => this.1 ?_, this.2⟩
            rw [hseen1]
            exact List.mem_append_left _ (List.mem_append_left [d] hc)
        · rw [List.nodup_append]
          refine ⟨?_, hnd2, ?_⟩
          · rw [List.nodup_append]
            refine ⟨by simp, hnd1, ?_⟩
            intro a ha hc
            rw [List.mem_singleton.mp ha] at hc
            exact (hfresh1 d hc).1 (by simp)
          · intro a ha hc
            have hfr2 := (hfresh2 a hc).1
            rcases List.mem_append.mp ha with ha2 | ha2
            · rw [List.mem_singleton.mp ha2] at hfr2
              exact hfr2 hdin
            · exact hfr2 (hsub1 a ha2)
        · intro r hr
          rcases List.mem_append.mp hr with hr2 | hr2
          · rcases hexp1 r hr2 with rfl | hr3
            · exact List.mem_append_left _ (List.mem_append_left _ (by simp))
            · exact List.mem_append_left _ (List.mem_append_right _ hr3)
          · exact List.mem_append_right _ (hexp2 r hr2)
        · rw [List.nodup_append]
          refine ⟨hexnd1, hexnd2, ?_⟩
          intro a ha hc
          have hain : a ∈ (rec d (depth + 1) (seen ++ [d])).2.1 := by
            rcases hexp1 a ha with rfl | ha2
            · exact hdin
            · exact hsub1 a ha2
          exact (hfresh2 a (hexp2 a hc)).1 hain

theorem digGo_good (o : Oracle) :
    ∀ (fuel : Nat) (b : String) (depth : Nat) (seen : List String),
    (b ∈ seen ∨ ¬ RevOf o b) → GoodRun o b seen (digGo o fuel b depth seen) := by
  intro fuel
  induction fuel with
  | zero =>
    intro b depth seen hb
    exact ⟨[], by simp [digGo], by simp, by simp, by simp [digGo],
      by simp [digGo]⟩
  | succ fuel ih =>
    intro b depth seen hb
    cases hE : (if b = "WORKING" then parse_hunks (o.diffL "HEAD" b) "HEAD" b
        else parse_all o b (o.parents b)) with
    | error e =>
      have hout : digGo o (fuel + 1) b depth seen =
          (⟨[], [b]⟩, seen, some (.parse e)) := by
        simp only [digGo, hE]
      rw [GoodRun, hout]
      refine ⟨[], by simp, by simp, by simp, ?_, by simp⟩
      intro r hr
      simp at hr
      exact Or.inl hr
    | ok hunks =>
      have hempty : ∀ h ∈ hunks, h.deps = [] := by
        by_cases hw : b = "WORKING"
        · rw [if_pos hw] at hE
          exact parse_hunks_deps _ _ _ _ hE
        · rw [if_neg hw] at hE
          exact parse_all_deps o b _ _ hE
      cases hB : (blame_hunks o.blameL hunks).2 with
      | some e =>
        have hout : digGo o (fuel + 1) b depth seen =
            (⟨[], [b]⟩, seen, some (.blame e)) := by
          simp only [digGo, hE, hB]
        rw [GoodRun, hout]
        refine ⟨[], by simp, by simp, by simp, ?_, by simp⟩
        intro r hr
        simp at hr
        exact Or.inl hr
      | none =>
        have hdeps : ∀ d ∈ dedupDeps (blame_hunks o.blameL hunks).1,
            RevOf o d := by
          intro d hd
          obtain ⟨h, hh, hx⟩ := (mem_dedupDeps _ d).mp hd
          exact blame_hunks_deps_provenance o.blameL hunks hempty h hh d hx
        obtain ⟨Δ, hseen, hfresh, hnd, hexp, hexnd⟩ :=
          digFoldAux_good o (digGo o fuel)
            (fun d dp sn hdsn => ih d dp sn (Or.inl hdsn))
            (dedupDeps (blame_hunks o.blameL hunks).1) depth seen hdeps
        have hout : digGo o (fuel + 1) b depth seen =
            (⟨(digFoldAux (digGo o fuel) depth
                (dedupDeps (blame_hunks o.blameL hunks).1) seen).1,
              b :: (digFoldAux (digGo o fuel) depth
                (dedupDeps (blame_hunks o.blameL hunks).1) seen).2.1⟩,
              (digFoldAux (digGo o fuel) depth
                (dedupDeps (blame_hunks o.blameL hunks).1) seen).2.2.1,
              (digFoldAux (digGo o fuel) depth
                (dedupDeps (blame_hunks o.blameL hunks).1) seen).2.2.2) := by
          simp only [digGo, hE, hB]
        rw [GoodRun, hout]
        refine ⟨Δ, hseen, hfresh, hnd, ?_, ?_⟩
        · intro r hr
          rcases List.mem_cons.mp hr with rfl | hr2
          · exact Or.inl rfl
          · exact Or.inr (hexp r hr2)
        · rw [List.nodup_cons]
          refine ⟨?_, hexnd⟩
          intro hc
          have hbΔ : b ∈ Δ := hexp b hc
          rcases hb with hb2 | hb2
          · exact (hfresh b hbΔ).1 hb2
          · exact hb2 (hfresh b hbΔ).2

/-- C7: within one invocation of the walker on a fresh visited set, no
revision is ever expanded more than once — provided the base revision is
not itself a revision token of any blame line (in git, the blamed
revisions are ancestors of the parent, so a revision never blames to
itself); every other revision is guarded by the visited set, which is
checked and extended before every recursion. -/
theorem dig_expands_at_most_once (o : Oracle) (base : String) (m : Nat)
    (H : ∀ rev path l, l ∈ o.blameL rev path →
      ∀ x n, parse_blame_line l = some (x, n) → x ≠ base) :
    ∀ r, List.count r (dig o base m).1.expanded ≤ 1 := by
  have hnr : ¬ RevOf o base := by
    rintro ⟨rev, path, l, n, hl, hp⟩
    exact H rev path l hl base n hp rfl
  obtain ⟨Δ, hseen, hfresh, hnd, hexp, hexnd⟩ :=
    digGo_good o m base 0 [] (Or.inr hnr)
  intro r
  exact List.nodup_iff_count_le_one.mp hexnd r

/-- C7 witness: the trivial oracle (no parents, no diff, no blame) with
base B at depth 1: B is expanded exactly once. -/
theorem dig_expands_at_most_once_witness :
    List.count "B" (dig oracle0 "B" 1).1.expanded ≤ 1 :=
  dig_expands_at_most_once oracle0 "B" 1
    (fun rev path l hl => by simp [oracle0] at hl) "B"
